import Mathlib

/-!
Shallow embedding of `jp_morgan.cpp` (Super Simple Stocks).

Modelling conventions:
* C `double` is modelled as `ℚ` (the program only adds, multiplies and
  divides finitely many literal-derived values); division by zero yields 0
  in `ℚ` where C++ would produce inf/NaN.
* C `int` is modelled as `ℤ`, `time_t` as `ℤ` (a timestamp).
* The global mutable state (`trade_db`, the `the_index` object `gbce`) is
  passed explicitly; `time(NULL)` becomes an explicit `now` parameter and
  `rand()` an explicit stream of draws.
-/

set_option maxHeartbeats 1000000

namespace SSStock

/-- Stock type enum from the source. -/
def COMMON_STOCK : ℤ := 0

/-- Preferred stock enum value. -/
def PREF_STOCK : ℤ := 1

/-- Trading operation enum: buy. -/
def BUY_STOCK : ℤ := 0

/-- Trading operation enum: sell. -/
def SELL_STOCK : ℤ := 1

/-- `#define FIFTEEN_MINS 15 * 60`. -/
def FIFTEEN_MINS : ℤ := 15 * 60

/-- A trade operation record (`class trade_op`). -/
structure trade_op where
  stamp : ℤ
  symbol : String
  operation : ℤ
  quantity : ℤ
  price : ℚ
deriving DecidableEq

/-- The `trade_op` constructor: stamps with the current time and normalises
the operation code (`(op == BUY_STOCK) ? BUY_STOCK : SELL_STOCK`). -/
def mk_trade_op (now : ℤ) (sy : String) (op : ℤ) (qty : ℤ) (pr : ℚ) : trade_op :=
  { stamp := now
    symbol := sy
    operation := if op = BUY_STOCK then BUY_STOCK else SELL_STOCK
    quantity := qty
    price := pr }

/-- An entry of the GBCE index (`class stock`). -/
structure stock where
  symbol : String
  type : ℤ
  last_dividend : ℚ
  fixed_dividend : ℚ
  par_value : ℚ
  price : ℚ
deriving DecidableEq

/-- The `stock` constructor: normalises the type code and initialises the
price to the par value (`par_value = price = pv`). -/
def mk_stock (sy : String) (ty : ℤ) (ld fd pv : ℚ) : stock :=
  { symbol := sy
    type := if ty = PREF_STOCK then ty else COMMON_STOCK
    last_dividend := ld
    fixed_dividend := fd
    par_value := pv
    price := pv }

/-- `stock::get_dividend_yield`: a switch on the stock type. -/
def stock.get_dividend_yield (s : stock) : ℚ :=
  if s.type = COMMON_STOCK then s.last_dividend / s.price
  else if s.type = PREF_STOCK then s.fixed_dividend / s.price
  else 0

/-- `stock::get_pe_ratio`: `price / last_dividend` guarded by
`if(last_dividend)`. -/
def stock.get_pe_ratio (s : stock) : ℚ :=
  if s.last_dividend ≠ 0 then s.price / s.last_dividend else 0

/-- The loop body of `stock::set_price` folded over `trade_db`:
accumulates `(trades, tq, q)` where the record matches the symbol and
`interval >= now - stamp`. -/
def set_price_scan (s : stock) (now interval : ℤ) (db : List trade_op) : ℕ × ℚ × ℚ :=
  db.foldl
    (fun acc op =>
      if op.symbol = s.symbol ∧ now - op.stamp ≤ interval then
        (acc.1 + 1, acc.2.1 + (op.quantity : ℚ) * op.price, acc.2.2 + (op.quantity : ℚ))
      else acc)
    (0, 0, 0)

/-- `stock::set_price`: if any trade matched, the price becomes `tq / q`;
returns the (possibly updated) stock together with the returned price. -/
def stock.set_price (s : stock) (now : ℤ) (db : List trade_op) (interval : ℤ) :
    stock × ℚ :=
  let r := set_price_scan s now interval db
  if r.1 ≠ 0 then ({ s with price := r.2.1 / r.2.2 }, r.2.1 / r.2.2)
  else (s, s.price)

/-- The subset of the trade log matching a stock's symbol with age at most
`interval` (the records `set_price` aggregates; the spec's `trades_for`). -/
def matching (s : stock) (now interval : ℤ) (db : List trade_op) : List trade_op :=
  db.filter (fun op => op.symbol = s.symbol ∧ now - op.stamp ≤ interval)

/-- The seed table built by the `the_index` constructor. -/
def gbce_init : List stock :=
  [ mk_stock "TEA" COMMON_STOCK 0 0 1
  , mk_stock "POP" COMMON_STOCK (8/100) 0 1
  , mk_stock "ALE" COMMON_STOCK (23/100) 0 (60/100)
  , mk_stock "GIN" PREF_STOCK (8/100) 2 1
  , mk_stock "JOE" COMMON_STOCK (13/100) 0 (5/2) ]

/-- `the_index::exist`: linear membership scan by symbol. -/
def the_index.exist (l : List stock) (symbol : String) : Bool :=
  l.any (fun st => st.symbol = symbol)

/-- `the_index::trade`: rejects an empty symbol, a negative price or a
negative quantity, otherwise appends a freshly stamped record. Returns the
success flag and the new trade log. -/
def the_index.trade (db : List trade_op) (now : ℤ) (symbol : String) (op : ℤ)
    (num : ℤ) (price : ℚ) : Bool × List trade_op :=
  if symbol = "" ∨ price < 0 ∨ num < 0 then (false, db)
  else (true, db ++ [mk_trade_op now symbol op num price])

/-- `the_index::random_trade`: appends one record whose side, quantity and
price are derived from three `rand()` draws. -/
def the_index.random_trade (db : List trade_op) (now : ℤ) (sym : String)
    (r1 r2 r3 : ℕ) : List trade_op :=
  db ++ [mk_trade_op now sym
          (if r1 % 2 ≠ 0 then BUY_STOCK else SELL_STOCK)
          ((1 + r2 % 109 : ℕ) : ℤ)
          ((41/100 : ℚ) + ((r3 % 299 : ℕ) : ℚ) / 100)]

/-- `the_index::get_index`: multiplies the nonzero prices (`if(num) tmp*=num`)
and takes the `N`-th root with `N = list.size()`. -/
noncomputable def the_index.get_index (l : List stock) : ℝ :=
  ((l.foldl (fun tmp st => if st.price ≠ 0 then tmp * st.price else tmp) 1 : ℚ) : ℝ)
    ^ ((1 : ℝ) / (l.length : ℝ))

/-- `the_index::price`: recomputes every entry's price from the trade log
over a fifteen-minute window. -/
def the_index.price (l : List stock) (db : List trade_op) (now : ℤ) : List stock :=
  l.map (fun st => (st.set_price now db FIFTEEN_MINS).1)

/-- Splits a character list on the space delimiter, accumulating the current
token in reverse (the body of the `getline(f, s, ' ')` loop). -/
def splitSp : List Char → List Char → List String
  | [], acc => [String.mk acc.reverse]
  | ' ' :: cs, acc => String.mk acc.reverse :: splitSp cs []
  | c :: cs, acc => splitSp cs (c :: acc)

/-- The `while (getline(f, s, ' ')) cmd.push_back(s)` tokenisation: an empty
line yields no token, and a trailing delimiter yields no trailing empty
token (`getline` fails at end of stream). -/
def tokenize (line : String) : List String :=
  if line.data = [] then []
  else if line.data.getLast? = some ' ' then (splitSp line.data []).dropLast
  else splitSp line.data []

/-- Digits-to-number accumulator used by the `atoi`/`atof` models. -/
def natOfDigits (cs : List Char) : ℕ :=
  cs.foldl (fun n c => 10 * n + (c.toNat - 48)) 0

/-- Modelled from the spec: the C library `atoi` (not in this repository)
on the decimal forms the dispatcher feeds it — optional leading whitespace,
optional sign, then a digit prefix. -/
def atoi (s : String) : ℤ :=
  let cs := s.data.dropWhile (fun c => c = ' ' ∨ c = '\t' ∨ c = '\n' ∨ c = '\r')
  match cs with
  | '-' :: rest => -((natOfDigits (rest.takeWhile Char.isDigit) : ℤ))
  | '+' :: rest => (natOfDigits (rest.takeWhile Char.isDigit) : ℤ)
  | _ => (natOfDigits (cs.takeWhile Char.isDigit) : ℤ)

/-- Unsigned decimal part of the `atof` model: integer digits, optionally a
point and fractional digits. -/
def atofCore (cs : List Char) : ℚ :=
  let ip := cs.takeWhile Char.isDigit
  let fp := match cs.dropWhile Char.isDigit with
            | '.' :: r => r.takeWhile Char.isDigit
            | _ => []
  (natOfDigits ip : ℚ) + (natOfDigits fp : ℚ) / ((10 : ℚ) ^ fp.length)

/-- Modelled from the spec: the C library `atof` (not in this repository)
on plain decimal literals (no exponent or hex forms, which the spec's
command grammar never produces). -/
def atof (s : String) : ℚ :=
  let cs := s.data.dropWhile (fun c => c = ' ' ∨ c = '\t' ∨ c = '\n' ∨ c = '\r')
  match cs with
  | '-' :: rest => -(atofCore rest)
  | '+' :: rest => atofCore rest
  | _ => atofCore cs

/-- The whole mutable state of the process: the `gbce` index and the global
`trade_db`. -/
structure world where
  gbce : List stock
  db : List trade_op
deriving DecidableEq

/-- The state at program startup. -/
def world_init : world := { gbce := gbce_init, db := [] }

/-- `process_command`: tokenises the line and dispatches. Returns the new
state and the Bool that keeps the `main` loop running. `rand` supplies the
fifteen `rand()` draws the `trade` branch consumes. -/
def process_command (now : ℤ) (rand : ℕ → ℕ) (w : world) (cmdline : String) :
    world × Bool :=
  match tokenize cmdline with
  | [] => (w, true)
  | c0 :: args =>
    if c0 = "quit" then (w, false)
    else if c0 = "help" then (w, true)
    else if c0 = "index" then (w, true)
    else if c0 = "trade" then
      let db1 := the_index.random_trade w.db now "TEA" (rand 0) (rand 1) (rand 2)
      let db2 := the_index.random_trade db1 now "POP" (rand 3) (rand 4) (rand 5)
      let db3 := the_index.random_trade db2 now "ALE" (rand 6) (rand 7) (rand 8)
      let db4 := the_index.random_trade db3 now "GIN" (rand 9) (rand 10) (rand 11)
      let db5 := the_index.random_trade db4 now "JOE" (rand 12) (rand 13) (rand 14)
      ({ w with db := db5 }, true)
    else if c0 = "buy" ∨ c0 = "sell" then
      match args with
      | a1 :: a2 :: a3 :: _ =>
        if the_index.exist w.gbce a2 then
          let side := if c0 = "sell" then SELL_STOCK else BUY_STOCK
          ({ w with db := (the_index.trade w.db now a2 side (atoi a1) (atof a3)).2 },
           true)
        else (w, true)
      | _ => (w, true)
    else if c0 = "list" then (w, true)
    else if c0 = "price" then ({ w with gbce := the_index.price w.gbce w.db now }, true)
    else if c0 = "yield" then (w, true)
    else if c0 = "pe" then (w, true)
    else (w, true)

/-- One state-changing operation of the program, with its wall-clock instant
(and `rand()` draws where used). -/
inductive Act where
  | tr (sy : String) (op : ℤ) (num : ℤ) (pr : ℚ) (now : ℤ)
  | rnd (sym : String) (r1 r2 r3 : ℕ) (now : ℤ)
  | recalc (now : ℤ)

/-- Effect of one operation on the program state. -/
def step (w : world) : Act → world
  | .tr sy op num pr now => { w with db := (the_index.trade w.db now sy op num pr).2 }
  | .rnd sym r1 r2 r3 now => { w with db := the_index.random_trade w.db now sym r1 r2 r3 }
  | .recalc now => { w with gbce := the_index.price w.gbce w.db now }

/-- Running a sequence of operations from a given state. -/
def runFrom (w : world) (acts : List Act) : world :=
  acts.foldl step w

/-- The state reached from startup by a sequence of operations. -/
def run (acts : List Act) : world :=
  runFrom world_init acts

/-- A trade-recording operation carries strictly positive quantity and
price (random trades and recalculations always qualify). Zero-price trades
drive a price to exactly 0 and zero-quantity trades reach the 0.0/0.0
division of `set_price`, so both bounds are needed for positivity. -/
def act_pos : Act → Prop
  | .tr _ _ num pr _ => 0 < num ∧ 0 < pr
  | .rnd _ _ _ _ _ => True
  | .recalc _ => True

/-- Every record of the log has strictly positive quantity and price. -/
def db_pos (db : List trade_op) : Prop :=
  ∀ t ∈ db, 0 < t.quantity ∧ 0 < t.price

/-- Every entry of the index has strictly positive price. -/
def gbce_pos (l : List stock) : Prop :=
  ∀ s ∈ l, 0 < s.price

/-- The state invariant maintained by positive-trade operations: positive
prices, a positive trade log, and unchanged par values. Whenever the log is
positive, any nonempty matching set has a strictly positive quantity sum,
so the division in `set_price` is a genuine (nonzero-divisor) division. -/
def inv_pos (w : world) : Prop :=
  gbce_pos w.gbce ∧ db_pos w.db ∧
    w.gbce.map stock.par_value = gbce_init.map stock.par_value

/- ------------------------------------------------------------------ -/
/- Helper lemmas                                                       -/
/- ------------------------------------------------------------------ -/

lemma set_price_scan_aux (s : stock) (now interval : ℤ) :
    ∀ (db : List trade_op) (a : ℕ × ℚ × ℚ),
    List.foldl
      (fun acc op =>
        if op.symbol = s.symbol ∧ now - op.stamp ≤ interval then
          (acc.1 + 1, acc.2.1 + (op.quantity : ℚ) * op.price, acc.2.2 + (op.quantity : ℚ))
        else acc)
      a db
      = (a.1 + (matching s now interval db).length,
         a.2.1 + ((matching s now interval db).map
                    (fun op => (op.quantity : ℚ) * op.price)).sum,
         a.2.2 + ((matching s now interval db).map
                    (fun op => (op.quantity : ℚ))).sum) := by
  intro db
  induction db with
  | nil => intro a; simp [matching]
  | cons op db ih =>
    intro a
    by_cases h : op.symbol = s.symbol ∧ now - op.stamp ≤ interval
    · simp only [List.foldl_cons, ih, matching, List.filter_cons,
        decide_eq_true_eq, h, if_pos, List.length_cons, List.map_cons,
        List.sum_cons]
      refine Prod.ext ?_ (Prod.ext ?_ ?_) <;> simp <;> ring
    · simp only [List.foldl_cons, ih, matching, List.filter_cons,
        decide_eq_true_eq, h, if_neg, ite_false]

lemma set_price_scan_eq (s : stock) (now interval : ℤ) (db : List trade_op) :
    set_price_scan s now interval db =
      ((matching s now interval db).length,
       ((matching s now interval db).map (fun op => (op.quantity : ℚ) * op.price)).sum,
       ((matching s now interval db).map (fun op => (op.quantity : ℚ))).sum) := by
  have h := set_price_scan_aux s now interval db (0, 0, 0)
  simpa [set_price_scan] using h

/-- Claim C1: whenever at least one trade-log record matches the entry's
symbol with age ≤ the window, `set_price` sets the entry's price to the
volume-weighted average (Σ quantity·price)/(Σ quantity) over the matching
records and returns that price. -/
theorem set_price_vwap (s : stock) (now interval : ℤ) (db : List trade_op)
    (h : matching s now interval db ≠ []) :
    stock.set_price s now db interval =
      ({ s with price :=
          ((matching s now interval db).map
              (fun op => (op.quantity : ℚ) * op.price)).sum /
            ((matching s now interval db).map (fun op => (op.quantity : ℚ))).sum },
       ((matching s now interval db).map
           (fun op => (op.quantity : ℚ) * op.price)).sum /
         ((matching s now interval db).map (fun op => (op.quantity : ℚ))).sum) := by
  simp [stock.set_price, set_price_scan_eq, List.length_eq_zero, h]

/-- Witness for C1 at the spec's example: two matching trades
(qty 10 at 2.0, qty 20 at 3.0) give price (10·2 + 20·3)/(10 + 20). -/
theorem set_price_vwap_witness :
    stock.set_price (mk_stock "ALE" COMMON_STOCK (23/100) 0 (60/100)) 0
        [mk_trade_op 0 "ALE" BUY_STOCK 10 2, mk_trade_op 0 "ALE" BUY_STOCK 20 3] 900 =
      ({ mk_stock "ALE" COMMON_STOCK (23/100) 0 (60/100) with
          price := (10 * 2 + 20 * 3) / (10 + 20) },
       (10 * 2 + 20 * 3) / (10 + 20)) := by
  have h := set_price_vwap (mk_stock "ALE" COMMON_STOCK (23/100) 0 (60/100)) 0 900
      [mk_trade_op 0 "ALE" BUY_STOCK 10 2, mk_trade_op 0 "ALE" BUY_STOCK 20 3]
      (by simp +decide [matching, mk_trade_op, mk_stock])
  rw [h]
  norm_num [matching, mk_trade_op, mk_stock]

/-- Claim C2: with no matching record in the window, `set_price` returns the
stock completely unchanged together with its unchanged price, and the
price-recalculation operation never touches the trade log. -/
theorem set_price_no_trades (s : stock) (now interval : ℤ) (db : List trade_op)
    (w : world) (t : ℤ) :
    (matching s now interval db = [] →
      stock.set_price s now db interval = (s, s.price)) ∧
    (step w (Act.recalc t)).db = w.db := by
  refine ⟨fun h => ?_, rfl⟩
  simp [stock.set_price, set_price_scan_eq, h]

/-- Witness for C2: an empty trade log leaves the TEA entry at its initial
price 1 and the recalculation step keeps the startup log empty. -/
theorem set_price_no_trades_witness :
    stock.set_price (mk_stock "TEA" COMMON_STOCK 0 0 1) 0 [] 900 =
      (mk_stock "TEA" COMMON_STOCK 0 0 1, 1) ∧
    (step world_init (Act.recalc 0)).db = [] := by
  have h := set_price_no_trades (mk_stock "TEA" COMMON_STOCK 0 0 1) 0 900 [] world_init 0
  exact ⟨(h.1 (by simp [matching])).trans rfl, h.2.trans rfl⟩

/-- Claim C4: `trade` fails exactly when the symbol is empty, the quantity
is negative or the price is negative; a failed trade leaves the log
untouched, and a successful one appends exactly one record with the given
symbol, side, quantity, price and the current timestamp at the end. -/
theorem trade_spec (db : List trade_op) (now : ℤ) (sy : String) (op num : ℤ)
    (pr : ℚ) :
    ((the_index.trade db now sy op num pr).1 = false ↔
        (sy = "" ∨ num < 0 ∨ pr < 0)) ∧
    ((sy = "" ∨ num < 0 ∨ pr < 0) → (the_index.trade db now sy op num pr).2 = db) ∧
    ((op = BUY_STOCK ∨ op = SELL_STOCK) → ¬(sy = "" ∨ num < 0 ∨ pr < 0) →
      (the_index.trade db now sy op num pr).2 =
        db ++ [{ stamp := now, symbol := sy, operation := op,
                 quantity := num, price := pr }]) := by
  by_cases h : sy = "" ∨ pr < 0 ∨ num < 0
  · constructor
    · simp [the_index.trade, h]; tauto
    · exact ⟨fun _ => by simp [the_index.trade, h], fun _ hc => absurd (by tauto) hc⟩
  · have h2 := h
    push_neg at h2
    refine ⟨?_, fun hc => absurd (by tauto) h, ?_⟩
    · rw [the_index.trade, if_neg h]
      exact ⟨fun hb => absurd hb (by simp), fun hc => absurd (by tauto) h⟩
    rintro (hop | hop) _ <;>
      simp [the_index.trade, h, mk_trade_op, hop, BUY_STOCK, SELL_STOCK]

/-- Witness for C4 at the spec's example: trade("ALE", BUY, 10, 5.0)
succeeds and appends exactly that record to the empty log. -/
theorem trade_spec_witness :
    (the_index.trade [] 0 "ALE" BUY_STOCK 10 5).1 = true ∧
    (the_index.trade [] 0 "ALE" BUY_STOCK 10 5).2 =
      [{ stamp := 0, symbol := "ALE", operation := BUY_STOCK,
         quantity := 10, price := 5 }] := by
  have h := trade_spec [] 0 "ALE" BUY_STOCK 10 5
  have hval : ¬(("ALE" : String) = "" ∨ (10 : ℤ) < 0 ∨ (5 : ℚ) < 0) := by
    simp +decide
  constructor
  · cases hb : (the_index.trade [] 0 "ALE" BUY_STOCK 10 5).1 with
    | false => exact absurd (h.1.mp hb) hval
    | true => rfl
  · simpa using h.2.2 (Or.inl rfl) hval

/-- Claim C5: the dividend yield is last_dividend/price for COMMON stock,
fixed_dividend/price for PREFERRED stock, and 0 for any other type code. -/
theorem dividend_yield_spec (s : stock) :
    (s.type = COMMON_STOCK → s.get_dividend_yield = s.last_dividend / s.price) ∧
    (s.type = PREF_STOCK → s.get_dividend_yield = s.fixed_dividend / s.price) ∧
    (s.type ≠ COMMON_STOCK → s.type ≠ PREF_STOCK → s.get_dividend_yield = 0) := by
  refine ⟨fun h => ?_, fun h => ?_, fun h1 h2 => ?_⟩
  · simp [stock.get_dividend_yield, h]
  · simp [stock.get_dividend_yield, h, PREF_STOCK, COMMON_STOCK]
  · simp [stock.get_dividend_yield, h1, h2]

/-- Witness for C5: the seeded ALE entry is COMMON, so its yield is
0.23 / 0.60. -/
theorem dividend_yield_spec_witness :
    (mk_stock "ALE" COMMON_STOCK (23/100) 0 (60/100)).get_dividend_yield =
      (23/100) / (60/100) := by
  have h := (dividend_yield_spec (mk_stock "ALE" COMMON_STOCK (23/100) 0 (60/100))).1
      (by simp +decide [mk_stock])
  exact h.trans rfl

/-- Claim C6: the price/earnings ratio is price/last_dividend when the last
dividend is nonzero, and 0 when it is zero. -/
theorem pe_ratio_spec (s : stock) :
    (s.last_dividend ≠ 0 → s.get_pe_ratio = s.price / s.last_dividend) ∧
    (s.last_dividend = 0 → s.get_pe_ratio = 0) := by
  refine ⟨fun h => ?_, fun h => ?_⟩ <;> simp [stock.get_pe_ratio, h]

/-- Witness for C6: the seeded ALE entry has last dividend 0.23 ≠ 0, so its
P/E ratio is 0.60 / 0.23, and the seeded TEA entry has last dividend 0, so
its P/E ratio is 0. -/
theorem pe_ratio_spec_witness :
    (mk_stock "ALE" COMMON_STOCK (23/100) 0 (60/100)).get_pe_ratio =
      (60/100) / (23/100) ∧
    (mk_stock "TEA" COMMON_STOCK 0 0 1).get_pe_ratio = 0 := by
  refine ⟨?_, ?_⟩
  · have h := (pe_ratio_spec (mk_stock "ALE" COMMON_STOCK (23/100) 0 (60/100))).1
        (by norm_num [mk_stock])
    exact h.trans rfl
  · exact (pe_ratio_spec (mk_stock "TEA" COMMON_STOCK 0 0 1)).2 rfl

/-- Claim C10: `the_index::trade` accepts a zero-quantity trade (only
negative quantities are rejected), and on a log holding one such matching
record `set_price`'s scan reports a nonzero trade count — so the division
branch is taken — while the quantity-sum divisor is 0. -/
theorem set_price_zero_divisor :
    (the_index.trade [] 0 "TEA" BUY_STOCK 0 1).1 = true ∧
    (set_price_scan (mk_stock "TEA" COMMON_STOCK 0 0 1) 0 FIFTEEN_MINS
        (the_index.trade [] 0 "TEA" BUY_STOCK 0 1).2).1 ≠ 0 ∧
    (set_price_scan (mk_stock "TEA" COMMON_STOCK 0 0 1) 0 FIFTEEN_MINS
        (the_index.trade [] 0 "TEA" BUY_STOCK 0 1).2).2.2 = 0 := by
  refine ⟨?_, ?_, ?_⟩ <;>
    simp +decide [the_index.trade, mk_trade_op, mk_stock, set_price_scan,
      FIFTEEN_MINS, BUY_STOCK, COMMON_STOCK]

lemma fold_nonzero_prod :
    ∀ (l : List stock) (a : ℚ),
    l.foldl (fun tmp st => if st.price ≠ 0 then tmp * st.price else tmp) a
      = a * ((l.map stock.price).filter (fun p => p ≠ 0)).prod := by
  intro l
  induction l with
  | nil => intro a; simp
  | cons st l ih =>
    intro a
    rw [List.foldl_cons]
    by_cases h : st.price = 0
    · rw [if_neg (not_not_intro h), ih, List.map_cons, List.filter_cons]
      simp [h]
    · rw [if_pos h, ih, List.map_cons, List.filter_cons]
      simp [h, mul_assoc]

/-- Claim C3: `get_index` returns the N-th root, with N the total number of
entries, of the product of the nonzero current prices; with prices
[1,2,4,8,16] it returns 1024^(1/5) = 4. -/
theorem get_index_spec :
    (∀ l : List stock,
      the_index.get_index l =
        ((((l.map stock.price).filter (fun p => p ≠ 0)).prod : ℚ) : ℝ)
          ^ ((1 : ℝ) / (l.length : ℝ))) ∧
    (∀ l : List stock,
      l.map stock.price = [1, 2, 4, 8, 16] → the_index.get_index l = 4) := by
  have hgen : ∀ l : List stock,
      the_index.get_index l =
        ((((l.map stock.price).filter (fun p => p ≠ 0)).prod : ℚ) : ℝ)
          ^ ((1 : ℝ) / (l.length : ℝ)) := by
    intro l
    rw [the_index.get_index, fold_nonzero_prod, one_mul]
  refine ⟨hgen, fun l hl => ?_⟩
  have hlen : l.length = 5 := by
    have := congrArg List.length hl
    simpa using this
  rw [hgen, hl, hlen]
  have hfil : (([1, 2, 4, 8, 16] : List ℚ).filter (fun p => p ≠ 0)).prod = 1024 := by
    norm_num
  rw [hfil]
  have h4 : ((1024 : ℚ) : ℝ) = (4 : ℝ) ^ ((5 : ℕ) : ℝ) := by
    rw [Real.rpow_natCast]
    norm_num
  rw [h4, ← Real.rpow_mul (by norm_num : (0 : ℝ) ≤ 4)]
  norm_num

/-- Witness for C3: a five-entry index priced [1,2,4,8,16] has index value
exactly 4. -/
theorem get_index_spec_witness :
    the_index.get_index
      [ mk_stock "AAA" COMMON_STOCK 0 0 1
      , mk_stock "BBB" COMMON_STOCK 0 0 2
      , mk_stock "CCC" COMMON_STOCK 0 0 4
      , mk_stock "DDD" COMMON_STOCK 0 0 8
      , mk_stock "EEE" COMMON_STOCK 0 0 16 ] = 4 :=
  get_index_spec.2 _ rfl

lemma set_price_pos (s : stock) (now interval : ℤ) (db : List trade_op)
    (hdb : db_pos db) (hs : 0 < s.price) :
    0 < (stock.set_price s now db interval).1.price := by
  simp only [stock.set_price]
  split
  · next h =>
    have hm : matching s now interval db ≠ [] := by
      intro hnil
      rw [set_price_scan_eq, hnil] at h
      simp at h
    apply div_pos
    · rw [set_price_scan_eq]
      apply List.sum_pos
      · intro x hx
        obtain ⟨op, hop, rfl⟩ := List.mem_map.mp hx
        have hq := hdb op (List.mem_of_mem_filter hop)
        exact mul_pos (by exact_mod_cast hq.1) hq.2
      · simpa using hm
    · rw [set_price_scan_eq]
      apply List.sum_pos
      · intro x hx
        obtain ⟨op, hop, rfl⟩ := List.mem_map.mp hx
        exact_mod_cast (hdb op (List.mem_of_mem_filter hop)).1
      · simpa using hm
  · exact hs

lemma set_price_par (s : stock) (now interval : ℤ) (db : List trade_op) :
    (stock.set_price s now db interval).1.par_value = s.par_value := by
  simp only [stock.set_price]
  split <;> rfl

lemma step_inv_pos (w : world) (a : Act) (ha : act_pos a) (h : inv_pos w) :
    inv_pos (step w a) := by
  obtain ⟨hg, hdb, hpar⟩ := h
  cases a with
  | tr sy op num pr now =>
    obtain ⟨hnum, hpr⟩ := ha
    refine ⟨hg, ?_, hpar⟩
    by_cases hgd : sy = "" ∨ pr < 0 ∨ num < 0
    · simp only [step, the_index.trade, if_pos hgd]
      exact hdb
    · simp only [step, the_index.trade, if_neg hgd]
      intro t ht
      rcases List.mem_append.mp ht with h1 | h1
      · exact hdb t h1
      · have heq := List.mem_singleton.mp h1
        subst heq
        exact ⟨hnum, hpr⟩
  | rnd sym r1 r2 r3 now =>
    refine ⟨hg, ?_, hpar⟩
    intro t ht
    simp only [step, the_index.random_trade] at ht
    rcases List.mem_append.mp ht with h1 | h1
    · exact hdb t h1
    · have heq := List.mem_singleton.mp h1
      subst heq
      constructor
      · simp only [mk_trade_op]
        omega
      · simp only [mk_trade_op]
        positivity
  | recalc now =>
    refine ⟨?_, hdb, ?_⟩
    · intro s hs
      simp only [step, the_index.price] at hs
      obtain ⟨s0, hs0, rfl⟩ := List.mem_map.mp hs
      exact set_price_pos s0 now FIFTEEN_MINS w.db hdb (hg s0 hs0)
    · simp only [step, the_index.price, List.map_map]
      refine (List.map_congr_left fun st _ => ?_).trans hpar
      exact set_price_par st now FIFTEEN_MINS w.db

lemma runFrom_inv_pos : ∀ (acts : List Act) (w : world),
    (∀ a ∈ acts, act_pos a) → inv_pos w → inv_pos (runFrom w acts) := by
  intro acts
  induction acts with
  | nil => intro w _ h; exact h
  | cons a acts ih =>
    intro w hpos h
    exact ih (step w a) (fun b hb => hpos b (List.mem_cons_of_mem a hb))
      (step_inv_pos w a (hpos a (List.mem_cons_self a acts)) h)

lemma inv_pos_init : inv_pos world_init := by
  refine ⟨?_, ?_, rfl⟩
  · intro s hs
    simp [world_init, gbce_init] at hs
    rcases hs with rfl | rfl | rfl | rfl | rfl <;> norm_num [mk_stock]
  · intro t ht
    simp [world_init] at ht

/-- Counterexample to C7 as stated: the accepted zero-price trade
trade("ALE", BUY, 5, 0.0) followed by a price recalculation drives ALE's
current price to 0, which is not strictly positive. -/
theorem price_positive_cex :
    ¬ (∀ s ∈ (run [Act.tr "ALE" BUY_STOCK 5 0 0, Act.recalc 0]).gbce,
        0 < s.price) := by
  intro h
  have hm : (run [Act.tr "ALE" BUY_STOCK 5 0 0, Act.recalc 0]).gbce.map stock.price
      = [1, 1, 0, 1, 5/2] := by
    simp +decide [run, runFrom, step, world_init, gbce_init,
      the_index.trade, the_index.price, mk_stock, mk_trade_op,
      stock.set_price, set_price_scan, FIFTEEN_MINS,
      COMMON_STOCK, PREF_STOCK, BUY_STOCK, SELL_STOCK]
  have h0 : (0 : ℚ) ∈
      (run [Act.tr "ALE" BUY_STOCK 5 0 0, Act.recalc 0]).gbce.map stock.price := by
    rw [hm]; simp
  obtain ⟨s, hs, hps⟩ := List.mem_map.mp h0
  have hlt := h s hs
  rw [hps] at hlt
  exact lt_irrefl 0 hlt

/-- Claim C7 (amended): in every state reachable from startup by accepted
operations whose trade recordings all carry strictly positive quantity and
price, every entry's current price is strictly greater than 0 and the par
values are immutable. (The positivity preconditions are exactly what the
counterexamples force: an accepted zero-price trade drives a price to 0,
and an accepted zero-quantity trade reaches the zero-divisor division of
C10; under the preconditions the divisor is strictly positive whenever the
division branch is taken, so no division by zero is involved.) -/
theorem price_positive_invariant (acts : List Act)
    (hpos : ∀ a ∈ acts, act_pos a) :
    (∀ s ∈ (run acts).gbce, 0 < s.price) ∧
    (run acts).gbce.map stock.par_value = gbce_init.map stock.par_value := by
  have h := runFrom_inv_pos acts world_init hpos inv_pos_init
  exact ⟨h.1, h.2.2⟩

/-- Witness for the amended C7: after the positive trade
trade("ALE", BUY, 10, 5.0) the TEA entry's price is still positive and the
par values are unchanged. -/
theorem price_positive_invariant_witness :
    0 < (mk_stock "TEA" COMMON_STOCK 0 0 1).price ∧
    (run [Act.tr "ALE" BUY_STOCK 10 5 0]).gbce.map stock.par_value =
      gbce_init.map stock.par_value := by
  have h := price_positive_invariant [Act.tr "ALE" BUY_STOCK 10 5 0]
      (by
        intro a ha
        simp only [List.mem_singleton] at ha
        subst ha
        exact ⟨by norm_num, by norm_num⟩)
  refine ⟨h.1 _ ?_, h.2⟩
  simp [run, runFrom, step, world_init, gbce_init]

/-- Claim C8: the dispatcher's return value is false exactly when the first
space-separated token of the line is "quit"; every other line (empty lines,
unknown commands, malformed buy/sell and unknown symbols included) returns
true and keeps the loop running. -/
theorem process_command_quit_iff (now : ℤ) (rand : ℕ → ℕ) (w : world)
    (line : String) :
    (process_command now rand w line).2 = false ↔
      (tokenize line).head? = some "quit" := by
  cases htok : tokenize line with
  | nil => simp [process_command, htok]
  | cons c0 args =>
    by_cases hq : c0 = "quit"
    · subst hq; simp [process_command, htok]
    · have htrue : (process_command now rand w line).2 = true := by
        rcases args with _ | ⟨a1, _ | ⟨a2, _ | ⟨a3, rest⟩⟩⟩ <;>
          simp [process_command, htok, hq, apply_ite Prod.snd]
      simp [htrue, hq]

lemma trade_db_ext (db : List trade_op) (now : ℤ) (sy : String) (op num : ℤ)
    (pr : ℚ) :
    ∃ ext, (the_index.trade db now sy op num pr).2 = db ++ ext := by
  rw [the_index.trade]
  split_ifs
  · exact ⟨[], by simp⟩
  · exact ⟨[mk_trade_op now sy op num pr], rfl⟩

lemma ext_chain {α : Type} {l1 l2 l3 : List α}
    (h1 : ∃ e, l2 = l1 ++ e) (h2 : ∃ e, l3 = l2 ++ e) : ∃ e, l3 = l1 ++ e := by
  obtain ⟨e1, rfl⟩ := h1
  obtain ⟨e2, rfl⟩ := h2
  exact ⟨e1 ++ e2, List.append_assoc _ _ _⟩

/-- Claim C9: every dispatched command extends the trade log at its end
(the prior log is a prefix of the new one); a "trade" line appends exactly
five records, the well-formed "buy 5 ALE 3.00" on the seeded index appends
exactly one, and the unknown-symbol "buy 5 ZZZ 3.00" appends none. -/
theorem trade_log_append_only (now : ℤ) (rand : ℕ → ℕ) (w : world)
    (line : String) :
    (∃ ext, (process_command now rand w line).1.db = w.db ++ ext) ∧
    ((tokenize line).head? = some "trade" →
      (process_command now rand w line).1.db.length = w.db.length + 5) ∧
    (w.gbce = gbce_init →
      (process_command now rand w "buy 5 ALE 3.00").1.db.length = w.db.length + 1) ∧
    (w.gbce = gbce_init →
      (process_command now rand w "buy 5 ZZZ 3.00").1.db = w.db) := by
  refine ⟨?_, ?_, ?_, ?_⟩
  · cases htok : tokenize line with
    | nil => exact ⟨[], by simp [process_command, htok]⟩
    | cons c0 args =>
      rcases args with _ | ⟨a1, _ | ⟨a2, _ | ⟨a3, rest⟩⟩⟩ <;>
        simp only [process_command, htok] <;>
        split_ifs <;>
        first
          | exact ⟨[], (List.append_nil _).symm⟩
          | exact trade_db_ext _ _ _ _ _ _
          | exact ext_chain (ext_chain (ext_chain (ext_chain ⟨_, rfl⟩ ⟨_, rfl⟩)
              ⟨_, rfl⟩) ⟨_, rfl⟩) ⟨_, rfl⟩
  · intro h
    cases htok : tokenize line with
    | nil => rw [htok] at h; simp at h
    | cons c0 args =>
      rw [htok] at h
      simp only [List.head?_cons, Option.some.injEq] at h
      subst h
      simp [process_command, htok, the_index.random_trade]
  · intro hg
    have htok : tokenize "buy 5 ALE 3.00" = ["buy", "5", "ALE", "3.00"] := by decide
    have hex : the_index.exist gbce_init "ALE" = true := by decide
    have hq : atoi "5" = 5 := by decide
    have hp : atof "3.00" = 3 := by simp +decide [atof, atofCore, natOfDigits]
    simp [process_command, htok, hg, hex, hq, hp, the_index.trade, mk_trade_op]
    rw [if_neg (by norm_num : ¬(3 : ℚ) < 0)]
    simp
  · intro hg
    have htok : tokenize "buy 5 ZZZ 3.00" = ["buy", "5", "ZZZ", "3.00"] := by decide
    have hex : the_index.exist gbce_init "ZZZ" = false := by decide
    simp [process_command, htok, hg, hex]

/-- Witness for C9: from startup, the "trade" command leaves exactly five
records in the log. -/
theorem trade_log_append_only_witness :
    (process_command 0 (fun _ => 0) world_init "trade").1.db.length = 5 := by
  have h := (trade_log_append_only 0 (fun _ => 0) world_init "trade").2.1 (by decide)
  simpa [world_init] using h

end SSStock
